import Mathlib

set_option linter.unusedVariables false

/-! Verification development for the todo-scan crate (src/lib.rs): a scanner
that walks a directory tree, filters candidate files, matches configured
keywords case-insensitively as whole words, and returns entries sorted by
(file path, line number).

Modelling conventions: Rust strings are lists of characters (the ASCII
fragment of the Unicode classes used by the regex crate), paths are lists of
components, fallible operations return Except String, and the file system is
an explicit tree value.  The behaviour of the two external collaborators that
the code calls into is embedded from their documented semantics: the regex
crate (escaping, pattern compilation of escaped-literal alternations,
leftmost-first whole-word matching) and the walkdir crate (depth-first
enumeration with filter_entry pruning, which also applies to the root). -/

/-- Characters of a string literal; used to write the Rust string constants. -/
def chars (s : String) : List Char := s.toList

/-- Rust str values are modelled as lists of characters. -/
abbrev Str := List Char

/-- Rust Path/PathBuf values are modelled as lists of components. -/
abbrev PathC := List Str

/-- Whitespace trimming, as in Rust str::trim (ASCII whitespace model). -/
def trimChars (l : Str) : Str :=
  ((l.dropWhile Char.isWhitespace).reverse.dropWhile Char.isWhitespace).reverse

/-- Metacharacters escaped by regex::escape (regex-syntax is_meta_character). -/
def isRegexMeta (c : Char) : Bool :=
  c == '\\' || c == '.' || c == '+' || c == '*' || c == '?' || c == '(' ||
  c == ')' || c == '|' || c == '[' || c == ']' || c == Char.ofNat 123 ||
  c == Char.ofNat 125 || c == '^' || c == '$' || c == '#' || c == '&' ||
  c == '-' || c == '~'

/-- Model of regex::escape on one character. -/
def escapeChar (c : Char) : Str := if isRegexMeta c then ['\\', c] else [c]

/-- Model of regex::escape: every metacharacter is preceded by a backslash. -/
def regexEscape (k : Str) : Str := (k.map escapeChar).flatten

/-- The alternation body built in TodoScanner::new:
keywords.iter().map(regex::escape).collect().join("|"). -/
def keywordPattern : List Str → Str
  | [] => []
  | [k] => regexEscape k
  | k :: rest => regexEscape k ++ '|' :: keywordPattern rest

/-- Parser for the group body of the compiled pattern (?i)\b(body)\b,
modelling Regex::new on the sublanguage of escaped-literal alternations that
TodoScanner::new produces: a backslash makes the next character a literal, a
bare vertical bar separates alternatives, and a bare metacharacter is
rejected.  The result is the list of literal alternatives of the group. -/
def parseAltAux : Str → Str → List Str → Option (List Str)
  | [], cur, acc => some (acc ++ [cur.reverse])
  | c :: rest, cur, acc =>
    if c = '\\' then
      match rest with
      | [] => none
      | d :: rest2 => parseAltAux rest2 (d :: cur) acc
    else if c = '|' then parseAltAux rest [] (acc ++ [cur.reverse])
    else if isRegexMeta c then none
    else parseAltAux rest (c :: cur) acc

/-- Compilation of the keyword alternation body; none models a regex
compilation error. -/
def parseAlternation (body : Str) : Option (List Str) := parseAltAux body [] []

/-- ASCII model of the regex word-character class. -/
def isWordChar (c : Char) : Bool := c.isAlphanum || c == '_'

/-- Word-character test on an optional character (none = outside the line). -/
def wordOpt : Option Char → Bool
  | none => false
  | some c => isWordChar c

/-- Word boundary between positions i-1 and i of the line. -/
def boundaryAt (l : Str) (i : Nat) : Bool :=
  wordOpt (if i = 0 then none else l[i-1]?) != wordOpt l[i]?

/-- Case-insensitive character equality, modelling the (?i) flag. -/
def ciEq (a b : Char) : Bool := a.toLower == b.toLower

/-- Case-insensitive prefix test of a keyword against a suffix of the line. -/
def ciPrefix : Str → Str → Bool
  | [], _ => true
  | _ :: _, [] => false
  | k :: ks, c :: cs' => ciEq k c && ciPrefix ks cs'

/-- One alternative k matches at position i of l, with word boundaries on
both sides and case folded. -/
def wholeWordAt (k : Str) (l : Str) (i : Nat) : Bool :=
  ciPrefix k (l.drop i) && boundaryAt l i && boundaryAt l (i + k.length)

/-- At one start position the alternation tries its branches in order
(leftmost-first semantics of the regex crate); the value returned is the text
captured by group 1, i.e. the characters of the line itself. -/
def matchAltsAt : List Str → Str → Nat → Option Str
  | [], _, _ => none
  | k :: rest, l, i =>
    if wholeWordAt k l i then some ((l.drop i).take k.length)
    else matchAltsAt rest l i

/-- Leftmost search over start positions 0, 1, ... (fuelled by the remaining
number of candidate positions). -/
def findMatchAux (alts : List Str) (l : Str) : Nat → Nat → Option (Nat × Str)
  | 0, _ => none
  | steps+1, i =>
    match matchAltsAt alts l i with
    | some kw => some (i, kw)
    | none => findMatchAux alts l steps (i+1)

/-- Model of keyword_regex.captures(line): the leftmost match position and
the text captured by group 1 (the literal text as it appears in the line). -/
def captures (alts : List Str) (l : Str) : Option (Nat × Str) :=
  findMatchAux alts l (l.length + 1) 0

/-- ScanConfig from src/lib.rs. -/
structure ScanConfig where
  keywords : List Str
  include_patterns : List Str
  exclude_patterns : List Str
  context_lines : Nat
  respect_gitignore : Bool
  max_file_size : Nat
deriving DecidableEq

/-- ScanConfig::default(). -/
def ScanConfig.default : ScanConfig :=
  { keywords := [chars "TODO", chars "FIXME"]
    include_patterns := []
    exclude_patterns := []
    context_lines := 0
    respect_gitignore := true
    max_file_size := 10 * 1024 * 1024 }

/-- TodoScanner: the configuration plus the compiled keyword regex,
represented by the list of literal alternatives of its capture group. -/
structure TodoScanner where
  config : ScanConfig
  keyword_alts : List Str
deriving DecidableEq

/-- TodoScanner::new: escape each keyword, join with vertical bars, compile
the pattern (?i)\b(body)\b; a compilation failure is reported as an error. -/
def TodoScanner.new (config : ScanConfig) : Except String TodoScanner :=
  match parseAlternation (keywordPattern config.keywords) with
  | some alts => Except.ok { config := config, keyword_alts := alts }
  | none => Except.error "Failed to compile keyword regex"

/-- TodoEntry from src/lib.rs. -/
structure TodoEntry where
  file_path : PathC
  line_number : Nat
  keyword : Str
  text : Str
  context : Option Str
deriving DecidableEq

example : regexEscape (chars "C++") = chars "C\\+\\+" := by decide
example : keywordPattern [chars "a|b", chars "c"] = chars "a\\|b|c" := by decide
example : parseAlternation (chars "a\\|b|c") = some [chars "a|b", chars "c"] := by decide
example : parseAlternation (chars "a(") = none := by decide
example : captures [chars "TODO"] (chars "x TODOS TODO y") = some (8, chars "TODO") := by decide
example : captures [chars "TODO"] (chars "# todo: z") = some (2, chars "todo") := by decide
example : captures [chars "TODO"] (chars "TODOS") = none := by decide

/-- Substring test: strContains s pat is true when pat occurs contiguously
in s (the effect of matching s against the compiled pattern .*pat.* with pat
escaped, and of str::contains). -/
def strContains : Str → Str → Bool
  | l, pat =>
    pat.isPrefixOf l ||
      (match l with
       | [] => false
       | _ :: rest => strContains rest pat)

/-- Metadata of a path as returned by tokio::fs::metadata. -/
structure FMeta where
  is_file : Bool
  len : Nat
deriving DecidableEq

/-- Model of one on-disk file as seen by scan_file: the result of the
metadata fetch, of File::open, and the stream of next_line results (the list
ends at end of file; an error element aborts the read at that point). -/
structure FileModel where
  metaRes : Except String FMeta
  openRes : Except String Unit
  lineResults : List (Except String Str)

/-- build_context from src/lib.rs: returns the current line (the buffer is
ignored by the current implementation). -/
def build_context (_line_buffer : List Str) (current_line : Str) : Str := current_line

/-- The line loop of scan_file: counts every line (1-based), skips lines that
are empty after trimming, and for a keyword match records the trimmed line,
the group-1 text as the keyword, and the context exactly when
context_lines > 0.  The rolling line buffer is maintained as in the source
even though build_context ignores it. -/
def scan_lines (sc : TodoScanner) (p : PathC) :
    List (Except String Str) → Nat → List Str → List TodoEntry →
    Except String (List TodoEntry)
  | [], _, _, acc => Except.ok acc
  | Except.error e :: _, _, _, _ => Except.error e
  | Except.ok line :: rest, line_number, line_buffer, acc =>
    if (trimChars line).isEmpty then
      scan_lines sc p rest (line_number + 1) line_buffer acc
    else
      let acc' :=
        match captures sc.keyword_alts line with
        | some (_, kw) =>
          acc ++ [{ file_path := p
                    line_number := line_number + 1
                    keyword := kw
                    text := trimChars line
                    context :=
                      if sc.config.context_lines > 0 then
                        some (build_context line_buffer line)
                      else none }]
        | none => acc
      let line_buffer' :=
        if sc.config.context_lines > 0 then
          let b := line_buffer ++ [line]
          if b.length > sc.config.context_lines * 2 + 1 then b.drop 1 else b
        else line_buffer
      scan_lines sc p rest (line_number + 1) line_buffer' acc'

/-- scan_file from src/lib.rs: propagate a metadata error; return ok [] when
the path is not a regular file or its size exceeds max_file_size; propagate
an open error; then run the line loop. -/
def scan_file (sc : TodoScanner) (p : PathC) (fm : FileModel) :
    Except String (List TodoEntry) :=
  match fm.metaRes with
  | Except.error e => Except.error e
  | Except.ok metadata =>
    if !metadata.is_file then Except.ok []
    else if metadata.len > sc.config.max_file_size then Except.ok []
    else
      match fm.openRes with
      | Except.error e => Except.error e
      | Except.ok _ => scan_lines sc p fm.lineResults 0 [] []

/-- The fixed extension allow-list of should_scan_file. -/
def supported_exts : List Str :=
  [chars "py", chars "js", chars "ts", chars "rs", chars "go", chars "java",
   chars "c", chars "cpp", chars "h", chars "hpp", chars "cs", chars "rb",
   chars "php", chars "swift", chars "kt", chars "scala", chars "sh",
   chars "bash", chars "zsh", chars "fish", chars "md", chars "txt",
   chars "rst", chars "toml", chars "yaml", chars "yml", chars "json",
   chars "xml", chars "html", chars "css", chars "scss", chars "less",
   chars "sql", chars "r", chars "matlab", chars "lua"]

/-- Splitting of a file name into (stem, extension) as by Rust
Path::file_stem / Path::extension: split at the last dot whose prefix is
nonempty; a name without such a dot has no extension. -/
def extSplit (name : Str) : Str × Option Str :=
  if (name.drop 1).contains '.' then
    let extRev := name.reverse.takeWhile (fun c => c != '.')
    (name.take (name.length - extRev.length - 1), some extRev.reverse)
  else (name, none)

/-- Path rendered as the to_string_lossy output, components joined with /. -/
def pathString (p : PathC) : Str := List.intercalate ['/'] p

/-- should_scan_file from src/lib.rs.  The two for loops with early return
are the List.any folds; each pattern is escaped before being wrapped as
.*pat.*, so the compiled check is substring containment of the literal
pattern text (the Ok branch of the inner Regex::new is always taken). -/
def should_scan_file (cfg : ScanConfig) (p : PathC) : Bool :=
  if !(supported_exts.contains
      (match p.getLast? with
       | some n => ((extSplit n).2).getD []
       | none => [])) then
    match p.getLast? with
    | some n =>
      (chars "Makefile").isPrefixOf (extSplit n).1 ||
      (extSplit n).1 == chars "Dockerfile" ||
      (chars "Jenkinsfile").isPrefixOf (extSplit n).1
    | none => false
  else if cfg.exclude_patterns.any (fun pat => strContains (pathString p) pat) then
    false
  else if cfg.include_patterns.isEmpty then true
  else cfg.include_patterns.any (fun pat => strContains (pathString p) pat)

/-- is_ignored from src/lib.rs, as a function of the entry's file name and of
whether a .gitignore exists in the entry's parent directory. -/
def is_ignored (cfg : ScanConfig) (name : Str) (parent_has_gitignore : Bool) : Bool :=
  if name == chars ".git" then true
  else if cfg.respect_gitignore then
    if parent_has_gitignore then
      (match name with | c :: _ => c == '.' | [] => false) ||
      strContains name (chars "node_modules")
    else false
  else false

mutual
/-- A file-system tree: a file with its modelled content, a directory with
children, or a directory entry whose read fails (a walkdir error item). -/
inductive FsTree where
  | file (name : Str) (fm : FileModel) : FsTree
  | dir (name : Str) (children : FsForest) : FsTree
  | errEntry (msg : String) : FsTree
/-- Children of a directory. -/
inductive FsForest where
  | nil : FsForest
  | cons (t : FsTree) (ts : FsForest) : FsForest
end

/-- True when the directory with these children contains an entry named
.gitignore (the parent.join(".gitignore").exists() check). -/
def forestHasGitignore : FsForest → Bool
  | FsForest.nil => false
  | FsForest.cons t ts =>
    (match t with
     | FsTree.file n _ => n == chars ".gitignore"
     | FsTree.dir n _ => n == chars ".gitignore"
     | FsTree.errEntry _ => false) || forestHasGitignore ts

/-- One item yielded by the directory walker: an error, or a path together
with the file content for file entries (none for directory entries). -/
abbrev WalkItem := Except String (PathC × Option FileModel)

mutual
/-- Depth-first enumeration of walkdir, with the filter_entry predicate
fun e => not (is_ignored e) installed exactly when useFilter is true (the
predicate also applies to the root; a rejected directory is not descended
into).  Error items bypass the predicate.  The flag ph records whether the
parent directory contains a .gitignore entry; it is false for the root,
whose parent is outside the modelled tree. -/
def walkTree (cfg : ScanConfig) (useFilter : Bool) (pp : PathC) (ph : Bool) :
    FsTree → List WalkItem
  | FsTree.errEntry m => [Except.error m]
  | FsTree.file n fm =>
    if useFilter && is_ignored cfg n ph then []
    else [Except.ok (pp ++ [n], some fm)]
  | FsTree.dir n children =>
    if useFilter && is_ignored cfg n ph then []
    else
      Except.ok (pp ++ [n], none) ::
        walkForest cfg useFilter (pp ++ [n]) (forestHasGitignore children) children
/-- Enumeration of a list of siblings, in order. -/
def walkForest (cfg : ScanConfig) (useFilter : Bool) (pp : PathC) (ph : Bool) :
    FsForest → List WalkItem
  | FsForest.nil => []
  | FsForest.cons t ts =>
    walkTree cfg useFilter pp ph t ++ walkForest cfg useFilter pp ph ts
end

/-- The walker built by scan_directory: the filter is installed if and only
if respect_gitignore is set. -/
def walkItems (sc : TodoScanner) (root : FsTree) : List WalkItem :=
  walkTree sc.config sc.config.respect_gitignore [] false root

/-- The for loop of scan_directory: a walk error aborts (the ? on the
entry); directory entries are skipped; files rejected by should_scan_file
are skipped; a scan_file error is reported as a warning and skipped; entries
of successful scans are appended in walk order. -/
def collect_entries (sc : TodoScanner) :
    List WalkItem → List TodoEntry → Except String (List TodoEntry)
  | [], acc => Except.ok acc
  | Except.error e :: _, _ => Except.error e
  | Except.ok (_, none) :: rest, acc => collect_entries sc rest acc
  | Except.ok (p, some fm) :: rest, acc =>
    if !should_scan_file sc.config p then collect_entries sc rest acc
    else
      match scan_file sc p fm with
      | Except.ok file_entries => collect_entries sc rest (acc ++ file_entries)
      | Except.error _ => collect_entries sc rest acc

/-- Three-way comparison on Nat, modelling Ord::cmp on usize. -/
def natCmp (a b : Nat) : Ordering :=
  if a < b then Ordering.lt else if a = b then Ordering.eq else Ordering.gt

/-- Comparison of characters by code point (byte order of UTF-8 strings). -/
def charCmp (a b : Char) : Ordering := natCmp a.toNat b.toNat

/-- Lexicographic comparison of strings (Ord for OsStr). -/
def strCmp : Str → Str → Ordering
  | [], [] => Ordering.eq
  | [], _ :: _ => Ordering.lt
  | _ :: _, [] => Ordering.gt
  | a :: as, b :: bs => (charCmp a b).then (strCmp as bs)

/-- Lexicographic comparison of paths by components (Ord for PathBuf). -/
def pathCmp : PathC → PathC → Ordering
  | [], [] => Ordering.eq
  | [], _ :: _ => Ordering.lt
  | _ :: _, [] => Ordering.gt
  | a :: as, b :: bs => (strCmp a b).then (pathCmp as bs)

/-- The comparator passed to sort_by in scan_directory:
file_path.cmp(..).then(line_number.cmp(..)). -/
def entryCmp (a b : TodoEntry) : Ordering :=
  (pathCmp a.file_path b.file_path).then (natCmp a.line_number b.line_number)

/-- Nonstrict order induced by the comparator. -/
def entryLE (a b : TodoEntry) : Bool :=
  match entryCmp a b with
  | Ordering.gt => false
  | _ => true

/-- Insertion step of the stable insertion sort. -/
def insertE (e : TodoEntry) : List TodoEntry → List TodoEntry
  | [] => [e]
  | f :: fs => if entryLE e f then e :: f :: fs else f :: insertE e fs

/-- Model of entries.sort_by(comparator): Vec::sort_by is a stable sort, and
a stable sort's output is determined by the comparator, so the stable
insertion sort computes it. -/
def sortEntries (l : List TodoEntry) : List TodoEntry := l.foldr insertE []

/-- scan_directory from src/lib.rs: walk (with the filter exactly when
respect_gitignore is set), collect per-file results, then sort. -/
def scan_directory (sc : TodoScanner) (root : FsTree) :
    Except String (List TodoEntry) :=
  match collect_entries sc (walkItems sc root) [] with
  | Except.error e => Except.error e
  | Except.ok entries => Except.ok (sortEntries entries)

/-- JSON values, the parse result of the serde_json output. -/
inductive Json where
  | jstr (s : Str) : Json
  | jnum (n : Nat) : Json
  | jarr (xs : List Json) : Json
  | jobj (fields : List (Str × Json)) : Json

/-- Serialization of one TodoEntry by serde: the four plain fields in
declaration order, and the context field only when the option is some
(the skip_serializing_if annotation on the context field). -/
def serialize_entry (e : TodoEntry) : Json :=
  Json.jobj
    ([(chars "file_path", Json.jstr (pathString e.file_path)),
      (chars "line_number", Json.jnum e.line_number),
      (chars "keyword", Json.jstr e.keyword),
      (chars "text", Json.jstr e.text)] ++
     (match e.context with
      | none => []
      | some c => [(chars "context", Json.jstr c)]))

/-- format_results_json from src/lib.rs, at the level of the JSON value that
the emitted text parses back to: serde_json::to_string_pretty of a slice
prints a JSON array of the serialized entries (it cannot fail on this
type, but the source checks, so the model keeps the Except). -/
def format_results_json (entries : List TodoEntry) : Except String Json :=
  Except.ok (Json.jarr (entries.map serialize_entry))

/-- Field lookup in a parsed JSON object. -/
def jlookup (fields : List (Str × Json)) (k : Str) : Option Json :=
  (fields.find? (fun f => f.1 == k)).map (fun f => f.2)

/-- Extension of a path as in should_scan_file: extension of the last
component, defaulting to the empty string (spec step 3, extension side). -/
def pathExtension (p : PathC) : Str :=
  match p.getLast? with
  | some n => ((extSplit n).2).getD []
  | none => []

/-- Eligibility by extension against the fixed allow-list (spec step 3). -/
def eligibleByExtension (p : PathC) : Bool :=
  supported_exts.contains (pathExtension p)

/-- Filename-pattern eligibility (spec step 3, filename side): prefix match
of the file stem against Makefile or Jenkinsfile, exact match Dockerfile. -/
def specialFileName (p : PathC) : Bool :=
  match p.getLast? with
  | some n =>
    (chars "Makefile").isPrefixOf (extSplit n).1 ||
    (extSplit n).1 == chars "Dockerfile" ||
    (chars "Jenkinsfile").isPrefixOf (extSplit n).1
  | none => false

/-- Some exclude pattern matches the full path string (spec step 4). -/
def excludeHit (cfg : ScanConfig) (p : PathC) : Bool :=
  cfg.exclude_patterns.any (fun pat => strContains (pathString p) pat)

/-- The include-pattern step admits the path (spec step 5): vacuously when
there are no include patterns, otherwise some pattern must match. -/
def includeOk (cfg : ScanConfig) (p : PathC) : Bool :=
  cfg.include_patterns.isEmpty ||
    cfg.include_patterns.any (fun pat => strContains (pathString p) pat)

/-- The sort key of an entry: (file path, line number). -/
def entryKey (e : TodoEntry) : PathC × Nat := (e.file_path, e.line_number)

/-- Propositional form of the nonstrict sort order. -/
def entryLeP (a b : TodoEntry) : Prop := entryLE a b = true

/-- Two entries have different sort keys. -/
def keyNe (a b : TodoEntry) : Prop := entryKey a ≠ entryKey b

/-- Entries contributed by the walk items whose file is admitted by the
filter and whose scan succeeds, in walk order: the per-file results that the
run keeps after skipping failing files. -/
def successfulEntries (sc : TodoScanner) (items : List WalkItem) : List TodoEntry :=
  (items.filterMap (fun it =>
    match it with
    | Except.ok (p, some fm) =>
      if should_scan_file sc.config p then (scan_file sc p fm).toOption else none
    | _ => none)).flatten

mutual
/-- No walk-error item occurs anywhere in the tree. -/
def treeNoErr : FsTree → Bool
  | FsTree.errEntry _ => false
  | FsTree.file _ _ => true
  | FsTree.dir _ children => forestNoErr children
/-- No walk-error item occurs anywhere in the forest. -/
def forestNoErr : FsForest → Bool
  | FsForest.nil => true
  | FsForest.cons t ts => treeNoErr t && forestNoErr ts
end

/-- Claim C5: when the metadata read succeeds, scan_file returns a successful
empty result (not an error) if the path is not a regular file, and likewise
if the file size strictly exceeds the configured max_file_size. -/
theorem C5_skip_nonfile_or_large (sc : TodoScanner) (p : PathC) (fm : FileModel)
    (m : FMeta) (hm : fm.metaRes = Except.ok m)
    (h : m.is_file = false ∨ sc.config.max_file_size < m.len) :
    scan_file sc p fm = Except.ok [] := by
  unfold scan_file
  rw [hm]
  rcases h with h | h
  · simp [h]
  · cases hf : m.is_file
    · simp [hf]
    · simp [hf, h]

/-- Scanner with a tiny size limit, for the C5 witness. -/
def scC5 : TodoScanner :=
  { config := { ScanConfig.default with max_file_size := 10 }
    keyword_alts := [chars "TODO"] }

/-- Oversized file for the C5 witness. -/
def fmC5 : FileModel :=
  { metaRes := Except.ok { is_file := true, len := 50 }
    openRes := Except.ok ()
    lineResults := [Except.ok (chars "# TODO: big")] }

/-- Witness for C5 at a concrete oversized file. -/
theorem C5_witness :
    fmC5.metaRes = Except.ok { is_file := true, len := 50 } ∧
    scan_file scC5 [chars "big.py"] fmC5 = Except.ok [] :=
  ⟨rfl, C5_skip_nonfile_or_large scC5 [chars "big.py"] fmC5
    { is_file := true, len := 50 } rfl (Or.inr (by decide))⟩

/-- Claim C1 (amended): a file eligible by extension is subject to the
exclude and include steps, but a file that is not eligible by extension and
is admitted via the filename patterns (Makefile*, Dockerfile, Jenkinsfile*)
is admitted unconditionally, bypassing the exclude and include steps. -/
theorem C1_filter_policy (cfg : ScanConfig) (p : PathC) :
    should_scan_file cfg p =
      ((eligibleByExtension p && !excludeHit cfg p && includeOk cfg p) ||
       (!eligibleByExtension p && specialFileName p)) := by
  unfold should_scan_file eligibleByExtension pathExtension specialFileName
    excludeHit includeOk
  cases hc : supported_exts.contains
      (match p.getLast? with
       | some n => ((extSplit n).2).getD []
       | none => []) <;>
    cases he : cfg.exclude_patterns.any (fun pat => strContains (pathString p) pat) <;>
      cases hi : cfg.include_patterns.isEmpty <;>
        simp [hc, he, hi]

/-- Configuration whose exclude pattern matches the path Makefile. -/
def cfgC1 : ScanConfig :=
  { keywords := [chars "TODO"]
    include_patterns := []
    exclude_patterns := [chars "Makefile"]
    context_lines := 0
    respect_gitignore := true
    max_file_size := 1000 }

/-- Claim C1 as stated is false on the code: the path Makefile is admitted
via the filename patterns even though an exclude pattern matches the full
path string, so the exclude step is not applied to it. -/
theorem C1_counterexample :
    should_scan_file cfgC1 [chars "Makefile"] = true ∧
    excludeHit cfgC1 [chars "Makefile"] = true :=
  ⟨by decide, by decide⟩

/-- Step lemma: a backslash makes the next character a literal. -/
lemma parseAltAux_cons_backslash (c : Char) (rest cur : Str) (acc : List Str) :
    parseAltAux ('\\' :: c :: rest) cur acc = parseAltAux rest (c :: cur) acc := by
  simp [parseAltAux]

/-- Step lemma: a bare vertical bar closes the current alternative. -/
lemma parseAltAux_cons_bar (rest cur : Str) (acc : List Str) :
    parseAltAux ('|' :: rest) cur acc = parseAltAux rest [] (acc ++ [cur.reverse]) := by
  rw [parseAltAux.eq_def]
  simp

/-- Step lemma: a non-metacharacter is consumed as a literal. -/
lemma parseAltAux_cons_plain {c : Char} (hm : isRegexMeta c = false)
    (rest cur : Str) (acc : List Str) :
    parseAltAux (c :: rest) cur acc = parseAltAux rest (c :: cur) acc := by
  have hb : c ≠ '\\' := by intro hce; rw [hce] at hm; exact absurd hm (by decide)
  have hp : c ≠ '|' := by intro hce; rw [hce] at hm; exact absurd hm (by decide)
  rw [parseAltAux.eq_def]
  simp [hb, hp, hm]

/-- Consuming an escaped keyword in the alternation parser prepends exactly
the keyword's characters to the current-literal accumulator. -/
lemma parseAltAux_escape (k : Str) :
    ∀ (rest cur : Str) (acc : List Str),
      parseAltAux (regexEscape k ++ rest) cur acc =
        parseAltAux rest (k.reverse ++ cur) acc := by
  induction k with
  | nil => intro rest cur acc; simp [regexEscape]
  | cons c k' ih =>
    intro rest cur acc
    have hesc : regexEscape (c :: k') ++ rest = escapeChar c ++ (regexEscape k' ++ rest) := by
      simp [regexEscape]
    rw [hesc]
    by_cases hm : isRegexMeta c = true
    · simp only [escapeChar, hm, if_pos]
      show parseAltAux ('\\' :: c :: (regexEscape k' ++ rest)) cur acc = _
      rw [parseAltAux_cons_backslash, ih]
      simp
    · simp only [escapeChar, hm, if_neg, Bool.not_eq_true]
      show parseAltAux (c :: (regexEscape k' ++ rest)) cur acc = _
      rw [parseAltAux_cons_plain (by simpa using hm), ih]
      simp

/-- The escaped join of a nonempty keyword list parses back to exactly the
original keywords, appended to the accumulator. -/
lemma parseAltAux_keywordPattern (ks : List Str) (hne : ks ≠ []) :
    ∀ acc, parseAltAux (keywordPattern ks) [] acc = some (acc ++ ks) := by
  induction ks with
  | nil => exact absurd rfl hne
  | cons k ks' ih =>
    intro acc
    cases ks' with
    | nil =>
      show parseAltAux (regexEscape k) [] acc = _
      have h := parseAltAux_escape k [] [] acc
      rw [List.append_nil] at h
      rw [h]
      simp [parseAltAux]
    | cons k2 ks2 =>
      show parseAltAux (regexEscape k ++ '|' :: keywordPattern (k2 :: ks2)) [] acc = _
      rw [parseAltAux_escape, parseAltAux_cons_bar, ih (by simp)]
      simp

/-- Round trip at the top level, for nonempty keyword lists. -/
lemma parseAlternation_keywordPattern (ks : List Str) (hne : ks ≠ []) :
    parseAlternation (keywordPattern ks) = some ks := by
  unfold parseAlternation
  rw [parseAltAux_keywordPattern ks hne []]
  simp

/-- Claim C8: TodoScanner::new regex-escapes every keyword before joining,
so the compiled pattern's alternatives are exactly the keyword literals (a
keyword containing metacharacters is matched as literal text, with no
pattern injection); and construction returns an error precisely when the
combined pattern fails to compile, in which case no scanner value exists
and no scan can proceed. -/
theorem C8_escaping_literal (cfg : ScanConfig) :
    (cfg.keywords ≠ [] →
      TodoScanner.new cfg =
        Except.ok { config := cfg, keyword_alts := cfg.keywords }) ∧
    ((TodoScanner.new cfg).isOk = true ↔
      (parseAlternation (keywordPattern cfg.keywords)).isSome = true) := by
  constructor
  · intro hne
    unfold TodoScanner.new
    rw [parseAlternation_keywordPattern cfg.keywords hne]
  · unfold TodoScanner.new
    cases parseAlternation (keywordPattern cfg.keywords) <;>
      simp [Except.isOk, Except.toBool]

/-- Configuration whose keywords contain regex metacharacters. -/
def cfgC8 : ScanConfig :=
  { ScanConfig.default with keywords := [chars "C++", chars "a|b"] }

/-- Witness for C8: keywords with metacharacters are compiled to themselves
as literal alternatives. -/
theorem C8_witness :
    cfgC8.keywords ≠ [] ∧
    TodoScanner.new cfgC8 =
      Except.ok { config := cfgC8, keyword_alts := [chars "C++", chars "a|b"] } :=
  ⟨by decide, (C8_escaping_literal cfgC8).1 (by decide)⟩

/-- Claim C10: TodoScanner::new succeeds for every keyword list, including
the empty list, whose compiled body is the empty alternation (one empty
literal alternative); the compilation-failure branch is unreachable. -/
theorem C10_new_never_fails (cfg : ScanConfig) :
    ∃ sc, TodoScanner.new cfg = Except.ok sc := by
  cases hk : cfg.keywords with
  | nil =>
    refine ⟨{ config := cfg, keyword_alts := [[]] }, ?_⟩
    unfold TodoScanner.new
    rw [hk]
    rfl
  | cons k ks =>
    refine ⟨{ config := cfg, keyword_alts := k :: ks }, ?_⟩
    unfold TodoScanner.new
    rw [hk, parseAlternation_keywordPattern (k :: ks) (by simp)]

/-- Claim C7: serializing a list of entries and parsing the result back
yields a JSON array of the same length whose i-th object carries the i-th
entry's line_number and keyword, and an absent context omits the context
field entirely (no null).  Printing and re-parsing is modelled at the level
of the JSON value, on which serde_json's printer and parser are mutually
inverse. -/
theorem C7_json_roundtrip (es : List TodoEntry) (js : Json)
    (h : format_results_json es = Except.ok js) :
    ∃ objs, js = Json.jarr objs ∧ objs.length = es.length ∧
      ∀ i (hi : i < es.length), ∃ fields,
        objs[i]? = some (Json.jobj fields) ∧
        jlookup fields (chars "line_number") =
          some (Json.jnum es[i].line_number) ∧
        jlookup fields (chars "keyword") =
          some (Json.jstr es[i].keyword) ∧
        (es[i].context = none →
          jlookup fields (chars "context") = none) := by
  unfold format_results_json at h
  have hjs : js = Json.jarr (es.map serialize_entry) := (Except.ok.inj h).symm
  refine ⟨es.map serialize_entry, hjs, by simp, ?_⟩
  intro i hi
  have hobj : (es.map serialize_entry)[i]? = some (serialize_entry es[i]) := by
    rw [List.getElem?_map, List.getElem?_eq_getElem hi]
    rfl
  cases hc : es[i].context with
  | none =>
    refine ⟨[(chars "file_path", Json.jstr (pathString es[i].file_path)),
             (chars "line_number", Json.jnum es[i].line_number),
             (chars "keyword", Json.jstr es[i].keyword),
             (chars "text", Json.jstr es[i].text)],
           ?_, rfl, rfl, fun _ => rfl⟩
    rw [hobj]
    simp [serialize_entry, hc]
  | some c =>
    refine ⟨[(chars "file_path", Json.jstr (pathString es[i].file_path)),
             (chars "line_number", Json.jnum es[i].line_number),
             (chars "keyword", Json.jstr es[i].keyword),
             (chars "text", Json.jstr es[i].text),
             (chars "context", Json.jstr c)],
           ?_, rfl, rfl, fun hcon => ?_⟩
    · rw [hobj]
      simp [serialize_entry, hc]
    · cases hcon

/-- Concrete entry without context for the C7 witness. -/
def eC7 : TodoEntry :=
  { file_path := [chars "a.py"]
    line_number := 2
    keyword := chars "TODO"
    text := chars "# TODO: x"
    context := none }

/-- The JSON value printed for the singleton list of eC7. -/
def jsC7 : Json := Json.jarr [serialize_entry eC7]

/-- Witness for C7 at a concrete one-entry list without context. -/
theorem C7_witness :
    ∃ objs, jsC7 = Json.jarr objs ∧ objs.length = [eC7].length ∧
      ∀ i (hi : i < [eC7].length), ∃ fields,
        objs[i]? = some (Json.jobj fields) ∧
        jlookup fields (chars "line_number") =
          some (Json.jnum [eC7][i].line_number) ∧
        jlookup fields (chars "keyword") =
          some (Json.jstr [eC7][i].keyword) ∧
        ([eC7][i].context = none →
          jlookup fields (chars "context") = none) :=
  C7_json_roundtrip [eC7] jsC7 rfl

/-- A some result of the alternation at one position comes from a member
alternative matching there, and the captured text is the slice of the line. -/
lemma matchAltsAt_some {alts : List Str} {l : Str} {i : Nat} {kw : Str}
    (h : matchAltsAt alts l i = some kw) :
    ∃ k ∈ alts, wholeWordAt k l i = true ∧ kw = (l.drop i).take k.length := by
  induction alts with
  | nil => simp [matchAltsAt] at h
  | cons a alts' ih =>
    by_cases hw : wholeWordAt a l i = true
    · rw [matchAltsAt, if_pos hw] at h
      exact ⟨a, by simp, hw, (Option.some.inj h).symm⟩
    · rw [matchAltsAt, if_neg hw] at h
      obtain ⟨k, hk, hkw⟩ := ih h
      exact ⟨k, by simp [hk], hkw⟩

/-- A member alternative that matches at a position forces the alternation
to report a match at that position. -/
lemma matchAltsAt_isSome_of_mem {alts : List Str} {l : Str} {i : Nat} {k : Str}
    (hk : k ∈ alts) (hw : wholeWordAt k l i = true) :
    (matchAltsAt alts l i).isSome = true := by
  induction alts with
  | nil => cases hk
  | cons a alts' ih =>
    by_cases hwa : wholeWordAt a l i = true
    · rw [matchAltsAt, if_pos hwa]; rfl
    · rw [matchAltsAt, if_neg hwa]
      rcases List.mem_cons.mp hk with he | hm
      · subst he; exact absurd hw hwa
      · exact ih hm

/-- A some result of the fuelled search is found at or after the start
position, the alternation matches there, and no earlier position from the
start matches. -/
lemma findMatchAux_some_spec (alts : List Str) (l : Str) :
    ∀ steps i j kw, findMatchAux alts l steps i = some (j, kw) →
      i ≤ j ∧ matchAltsAt alts l j = some kw ∧
        ∀ m, i ≤ m → m < j → matchAltsAt alts l m = none := by
  intro steps
  induction steps with
  | zero => intro i j kw h; simp [findMatchAux] at h
  | succ st ih =>
    intro i j kw h
    rw [findMatchAux] at h
    cases hm : matchAltsAt alts l i with
    | some kw' =>
      rw [hm] at h
      simp at h
      obtain ⟨he, hkw⟩ := h
      subst he
      subst hkw
      exact ⟨Nat.le_refl i, hm, fun m h1 h2 => absurd (Nat.lt_of_le_of_lt h1 h2) (Nat.lt_irrefl i)⟩
    | none =>
      rw [hm] at h
      simp at h
      obtain ⟨h1, h2, h3⟩ := ih (i+1) j kw h
      refine ⟨by omega, h2, ?_⟩
      intro m hm1 hm2
      by_cases he : m = i
      · subst he; exact hm
      · exact h3 m (by omega) hm2

/-- A none result of the fuelled search means no position in the searched
range matches. -/
lemma findMatchAux_none_spec (alts : List Str) (l : Str) :
    ∀ steps i, findMatchAux alts l steps i = none →
      ∀ j, i ≤ j → j < i + steps → matchAltsAt alts l j = none := by
  intro steps
  induction steps with
  | zero => intro i h j h1 h2; omega
  | succ st ih =>
    intro i h j h1 h2
    rw [findMatchAux] at h
    cases hm : matchAltsAt alts l i with
    | some kw' => rw [hm] at h; simp at h
    | none =>
      rw [hm] at h
      simp at h
      by_cases he : j = i
      · subst he; exact hm
      · exact ih (i+1) h j (by omega) (by omega)

/-- A whole-word match can only start inside the line (or at its end for an
empty alternative). -/
lemma wholeWordAt_le_length {k : Str} {l : Str} {i : Nat}
    (h : wholeWordAt k l i = true) : i ≤ l.length := by
  by_contra hgt
  push_neg at hgt
  have hb : boundaryAt l i = false := by
    unfold boundaryAt
    have h1 : l[i]? = none := by rw [List.getElem?_eq_none]; omega
    have h2 : l[i-1]? = none := by rw [List.getElem?_eq_none]; omega
    have h0 : ¬ (i = 0) := by omega
    simp [h1, h2, h0, wordOpt]
  unfold wholeWordAt at h
  rw [hb] at h
  simp at h

/-- Claim C3: the matcher reports a match iff the line contains some
configured keyword as a case-insensitive whole word (word boundaries on
both sides); among matches, the leftmost position wins; and the reported
keyword is the literal text of the line at the match position (not the
canonical keyword). -/
theorem C3_keyword_matching (alts : List Str) (l : Str) :
    ((captures alts l).isSome = true ↔
      ∃ k ∈ alts, ∃ i, wholeWordAt k l i = true) ∧
    (∀ i kw, captures alts l = some (i, kw) →
      (∃ k ∈ alts, wholeWordAt k l i = true ∧ kw = (l.drop i).take k.length) ∧
      ∀ j k, k ∈ alts → wholeWordAt k l j = true → i ≤ j) := by
  constructor
  · constructor
    · intro hs
      obtain ⟨⟨j, kw⟩, hj⟩ := Option.isSome_iff_exists.mp hs
      unfold captures at hj
      obtain ⟨_, h2, _⟩ := findMatchAux_some_spec alts l (l.length+1) 0 j kw hj
      obtain ⟨k, hk, hw, _⟩ := matchAltsAt_some h2
      exact ⟨k, hk, j, hw⟩
    · rintro ⟨k, hk, i, hw⟩
      by_contra hns
      have hnone : findMatchAux alts l (l.length+1) 0 = none := by
        cases hcap : captures alts l with
        | none => exact hcap
        | some v => rw [hcap] at hns; simp at hns
      have hle : i ≤ l.length := wholeWordAt_le_length hw
      have hz := findMatchAux_none_spec alts l (l.length+1) 0 hnone i
        (Nat.zero_le i) (by omega)
      have hsome := matchAltsAt_isSome_of_mem hk hw
      rw [hz] at hsome
      simp at hsome
  · intro i kw hcap
    unfold captures at hcap
    obtain ⟨h1, h2, h3⟩ := findMatchAux_some_spec alts l (l.length+1) 0 i kw hcap
    refine ⟨matchAltsAt_some h2, ?_⟩
    intro j k hk hw
    by_contra hlt
    push_neg at hlt
    have hnone := h3 j (Nat.zero_le j) hlt
    have hsome := matchAltsAt_isSome_of_mem hk hw
    rw [hnone] at hsome
    simp at hsome

/-- Witness for C3: in the line x TODOS TODO, TODOS positions are rejected
by the word boundary, the reported match is the literal slice at position 8,
and the leftmost-match property instantiates there. -/
theorem C3_witness :
    captures [chars "TODO"] (chars "x TODOS TODO") = some (8, chars "TODO") ∧
    (∀ j k, k ∈ [chars "TODO"] →
      wholeWordAt k (chars "x TODOS TODO") j = true → 8 ≤ j) :=
  ⟨by decide, fun j k hk hw =>
    ((C3_keyword_matching [chars "TODO"] (chars "x TODOS TODO")).2 8 (chars "TODO")
      (by decide)).2 j k hk hw⟩

/-- Invariant of the scan_file line loop: every produced entry that is not
already in the accumulator comes from a successfully read line at some
offset m of the remaining rows, carries the scanned path, the 1-based line
number n+m+1 (blank lines counted), the trimmed line as text, a keyword
match on the raw line, and a context exactly when context_lines > 0. -/
lemma scan_lines_spec (sc : TodoScanner) (p : PathC) :
    ∀ (rows : List (Except String Str)) (n : Nat) (buf : List Str)
      (acc es : List TodoEntry),
      scan_lines sc p rows n buf acc = Except.ok es →
      ∀ e ∈ es, e ∈ acc ∨
        ∃ m line, rows[m]? = some (Except.ok line) ∧
          e.file_path = p ∧
          e.line_number = n + m + 1 ∧
          e.text = trimChars line ∧
          (captures sc.keyword_alts line).isSome = true ∧
          (e.context.isSome = true ↔ 0 < sc.config.context_lines) := by
  intro rows
  induction rows with
  | nil =>
    intro n buf acc es h e he
    rw [scan_lines] at h
    left
    rw [Except.ok.inj h]
    exact he
  | cons row rows' ih =>
    intro n buf acc es h e he
    cases row with
    | error msg =>
      rw [scan_lines] at h
      cases h
    | ok line =>
      rw [scan_lines] at h
      by_cases hb : (trimChars line).isEmpty = true
      · rw [if_pos hb] at h
        rcases ih (n+1) buf acc es h e he with hacc | ⟨m, line', h1, h2, h3, h4, h5, h6⟩
        · exact Or.inl hacc
        · exact Or.inr ⟨m+1, line', by simpa using h1, h2, by omega, h4, h5, h6⟩
      · rw [if_neg hb] at h
        cases hc : captures sc.keyword_alts line with
        | some v =>
          obtain ⟨idx, kw⟩ := v
          simp only [hc] at h
          rcases ih (n+1) _ _ es h e he with hacc | ⟨m, line', h1, h2, h3, h4, h5, h6⟩
          · rcases List.mem_append.mp hacc with hina | hent
            · exact Or.inl hina
            · have hee := List.mem_singleton.mp hent
              subst hee
              refine Or.inr ⟨0, line, by simp, rfl, by simp, rfl, by rw [hc]; rfl, ?_⟩
              by_cases hcl : 0 < sc.config.context_lines
              · simp [hcl]
              · simp [hcl]
          · exact Or.inr ⟨m+1, line', by simpa using h1, h2, by omega, h4, h5, h6⟩
        | none =>
          simp only [hc] at h
          rcases ih (n+1) _ _ es h e he with hacc | ⟨m, line', h1, h2, h3, h4, h5, h6⟩
          · exact Or.inl hacc
          · exact Or.inr ⟨m+1, line', by simpa using h1, h2, by omega, h4, h5, h6⟩

/-- Entries of a successful scan_file run: each one carries the scanned
path, a 1-based line number pointing at its line, the trimmed text, a
keyword match, and a context exactly when context_lines > 0. -/
lemma scan_file_spec (sc : TodoScanner) (p : PathC) (fm : FileModel)
    (es : List TodoEntry) (h : scan_file sc p fm = Except.ok es) :
    ∀ e ∈ es, e.file_path = p ∧ 1 ≤ e.line_number ∧
      ∃ line, fm.lineResults[e.line_number - 1]? = some (Except.ok line) ∧
        e.text = trimChars line ∧
        (captures sc.keyword_alts line).isSome = true ∧
        (e.context.isSome = true ↔ 0 < sc.config.context_lines) := by
  unfold scan_file at h
  cases hmeta : fm.metaRes with
  | error msg =>
    rw [hmeta] at h
    cases h
  | ok m =>
    rw [hmeta] at h
    dsimp only at h
    cases hf : m.is_file with
    | false =>
      rw [hf] at h
      simp at h
      subst h
      intro e he
      cases he
    | true =>
      rw [hf] at h
      simp only [Bool.not_true] at h
      rw [if_neg (by simp)] at h
      by_cases hsz : m.len > sc.config.max_file_size
      · rw [if_pos hsz] at h
        simp at h
        subst h
        intro e he
        cases he
      · rw [if_neg hsz] at h
        cases hopen : fm.openRes with
        | error msg =>
          rw [hopen] at h
          simp at h
        | ok u =>
          rw [hopen] at h
          dsimp only at h
          intro e he
          rcases scan_lines_spec sc p fm.lineResults 0 [] [] es h e he with hacc |
            ⟨mm, line, h1, h2, h3, h4, h5, h6⟩
          · cases hacc
          · exact ⟨h2, by omega, line, by simpa [h3] using h1, h4, h5, h6⟩

/-- Claim C9: every entry produced by scan_file has line_number at least 1
equal to the 1-based position of the matched line (blank lines counted),
text equal to the whitespace-trimmed line, and a context exactly when the
configured context_lines is positive. -/
theorem C9_entry_invariants (sc : TodoScanner) (p : PathC) (fm : FileModel)
    (es : List TodoEntry) (h : scan_file sc p fm = Except.ok es) :
    ∀ e ∈ es, 1 ≤ e.line_number ∧
      ∃ line, fm.lineResults[e.line_number - 1]? = some (Except.ok line) ∧
        e.text = trimChars line ∧
        (captures sc.keyword_alts line).isSome = true ∧
        (e.context.isSome = true ↔ 0 < sc.config.context_lines) := by
  intro e he
  obtain ⟨_, h1, rest⟩ := scan_file_spec sc p fm es h e he
  exact ⟨h1, rest⟩

/-- Scanner with one context line, for the C9 witness. -/
def scC9 : TodoScanner :=
  { config := { ScanConfig.default with context_lines := 1 }
    keyword_alts := [chars "TODO"] }

/-- File whose second line is blank and whose third line matches. -/
def fmC9 : FileModel :=
  { metaRes := Except.ok { is_file := true, len := 30 }
    openRes := Except.ok ()
    lineResults :=
      [Except.ok (chars "x = 1"), Except.ok [], Except.ok (chars "# TODO: y")] }

/-- The single entry produced for fmC9. -/
def eC9 : TodoEntry :=
  { file_path := [chars "t.py"]
    line_number := 3
    keyword := chars "TODO"
    text := chars "# TODO: y"
    context := some (chars "# TODO: y") }

/-- Witness for C9 at a concrete file with a counted blank line. -/
theorem C9_witness :
    scan_file scC9 [chars "t.py"] fmC9 = Except.ok [eC9] ∧
    (1 ≤ eC9.line_number ∧
      ∃ line, fmC9.lineResults[eC9.line_number - 1]? = some (Except.ok line) ∧
        eC9.text = trimChars line ∧
        (captures scC9.keyword_alts line).isSome = true ∧
        (eC9.context.isSome = true ↔ 0 < scC9.config.context_lines)) :=
  ⟨rfl, C9_entry_invariants scC9 [chars "t.py"] fmC9 [eC9] rfl eC9
    (List.mem_singleton.mpr rfl)⟩

/-- natCmp is lt exactly on smaller left arguments. -/
lemma natCmp_eq_lt {a b : Nat} : natCmp a b = Ordering.lt ↔ a < b := by
  unfold natCmp
  by_cases h1 : a < b
  · simp [h1]
  · by_cases h2 : a = b <;> simp [h1, h2]

/-- natCmp is eq exactly on equal arguments. -/
lemma natCmp_eq_eq {a b : Nat} : natCmp a b = Ordering.eq ↔ a = b := by
  unfold natCmp
  by_cases h1 : a < b
  · simp [h1]; omega
  · by_cases h2 : a = b <;> simp [h1, h2]

/-- natCmp is gt exactly on larger left arguments. -/
lemma natCmp_eq_gt {a b : Nat} : natCmp a b = Ordering.gt ↔ b < a := by
  unfold natCmp
  by_cases h1 : a < b
  · simp [h1]; omega
  · by_cases h2 : a = b <;> simp [h1, h2] <;> omega

/-- charCmp is eq exactly on equal characters. -/
lemma charCmp_eq_eq {a b : Char} : charCmp a b = Ordering.eq ↔ a = b := by
  unfold charCmp
  rw [natCmp_eq_eq]
  exact ⟨fun h => Char.ext (UInt32.ext h), fun h => by rw [h]⟩

/-- charCmp reverses gt and lt under swapping. -/
lemma charCmp_eq_gt {a b : Char} :
    charCmp a b = Ordering.gt ↔ charCmp b a = Ordering.lt := by
  unfold charCmp
  rw [natCmp_eq_gt, natCmp_eq_lt]

/-- charCmp lt is transitive. -/
lemma charCmp_lt_trans {a b c : Char} (h1 : charCmp a b = Ordering.lt)
    (h2 : charCmp b c = Ordering.lt) : charCmp a c = Ordering.lt := by
  unfold charCmp at h1 h2 ⊢
  rw [natCmp_eq_lt] at h1 h2 ⊢
  omega

/-- strCmp is eq exactly on equal strings. -/
lemma strCmp_eq_eq : ∀ (s t : Str), strCmp s t = Ordering.eq ↔ s = t := by
  intro s
  induction s with
  | nil => intro t; cases t <;> simp [strCmp]
  | cons a as ih =>
    intro t
    cases t with
    | nil => simp [strCmp]
    | cons b bs =>
      rw [strCmp, Ordering.then_eq_eq, charCmp_eq_eq, ih bs]
      simp

/-- strCmp reverses gt and lt under swapping. -/
lemma strCmp_gt_iff : ∀ (s t : Str), strCmp s t = Ordering.gt ↔ strCmp t s = Ordering.lt := by
  intro s
  induction s with
  | nil => intro t; cases t <;> simp [strCmp]
  | cons a as ih =>
    intro t
    cases t with
    | nil => simp [strCmp]
    | cons b bs =>
      rw [strCmp, strCmp, Ordering.then_eq_gt, Ordering.then_eq_lt, charCmp_eq_gt, ih bs]
      constructor
      · rintro (h | ⟨h1, h2⟩)
        · exact Or.inl h
        · have hab : a = b := charCmp_eq_eq.mp h1
          subst hab
          exact Or.inr ⟨charCmp_eq_eq.mpr rfl, h2⟩
      · rintro (h | ⟨h1, h2⟩)
        · exact Or.inl h
        · have hba : b = a := charCmp_eq_eq.mp h1
          subst hba
          exact Or.inr ⟨charCmp_eq_eq.mpr rfl, h2⟩

/-- strCmp lt is transitive. -/
lemma strCmp_lt_trans : ∀ (s t u : Str), strCmp s t = Ordering.lt →
    strCmp t u = Ordering.lt → strCmp s u = Ordering.lt := by
  intro s
  induction s with
  | nil =>
    intro t u h1 h2
    cases t with
    | nil => simp [strCmp] at h1
    | cons b bs =>
      cases u with
      | nil => simp [strCmp] at h2
      | cons c cs2 => simp [strCmp]
  | cons a as ih =>
    intro t u h1 h2
    cases t with
    | nil => simp [strCmp] at h1
    | cons b bs =>
      cases u with
      | nil => simp [strCmp] at h2
      | cons c cs2 =>
        rw [strCmp, Ordering.then_eq_lt] at h1 h2 ⊢
        rcases h1 with h1 | ⟨h1e, h1t⟩
        · rcases h2 with h2 | ⟨h2e, h2t⟩
          · exact Or.inl (charCmp_lt_trans h1 h2)
          · have hbc : b = c := charCmp_eq_eq.mp h2e
            subst hbc
            exact Or.inl h1
        · have hab : a = b := charCmp_eq_eq.mp h1e
          subst hab
          rcases h2 with h2 | ⟨h2e, h2t⟩
          · exact Or.inl h2
          · have hac : a = c := charCmp_eq_eq.mp h2e
            subst hac
            exact Or.inr ⟨charCmp_eq_eq.mpr rfl, ih bs cs2 h1t h2t⟩

/-- pathCmp is eq exactly on equal paths. -/
lemma pathCmp_eq_eq : ∀ (s t : PathC), pathCmp s t = Ordering.eq ↔ s = t := by
  intro s
  induction s with
  | nil => intro t; cases t <;> simp [pathCmp]
  | cons a as ih =>
    intro t
    cases t with
    | nil => simp [pathCmp]
    | cons b bs =>
      rw [pathCmp, Ordering.then_eq_eq, strCmp_eq_eq, ih bs]
      simp

/-- pathCmp reverses gt and lt under swapping. -/
lemma pathCmp_gt_iff : ∀ (s t : PathC), pathCmp s t = Ordering.gt ↔ pathCmp t s = Ordering.lt := by
  intro s
  induction s with
  | nil => intro t; cases t <;> simp [pathCmp]
  | cons a as ih =>
    intro t
    cases t with
    | nil => simp [pathCmp]
    | cons b bs =>
      rw [pathCmp, pathCmp, Ordering.then_eq_gt, Ordering.then_eq_lt, strCmp_gt_iff, ih bs]
      constructor
      · rintro (h | ⟨h1, h2⟩)
        · exact Or.inl h
        · have hab : a = b := (strCmp_eq_eq a b).mp h1
          subst hab
          exact Or.inr ⟨(strCmp_eq_eq a a).mpr rfl, h2⟩
      · rintro (h | ⟨h1, h2⟩)
        · exact Or.inl h
        · have hba : b = a := (strCmp_eq_eq b a).mp h1
          subst hba
          exact Or.inr ⟨(strCmp_eq_eq b b).mpr rfl, h2⟩

/-- pathCmp lt is transitive. -/
lemma pathCmp_lt_trans : ∀ (s t u : PathC), pathCmp s t = Ordering.lt →
    pathCmp t u = Ordering.lt → pathCmp s u = Ordering.lt := by
  intro s
  induction s with
  | nil =>
    intro t u h1 h2
    cases t with
    | nil => simp [pathCmp] at h1
    | cons b bs =>
      cases u with
      | nil => simp [pathCmp] at h2
      | cons c cs2 => simp [pathCmp]
  | cons a as ih =>
    intro t u h1 h2
    cases t with
    | nil => simp [pathCmp] at h1
    | cons b bs =>
      cases u with
      | nil => simp [pathCmp] at h2
      | cons c cs2 =>
        rw [pathCmp, Ordering.then_eq_lt] at h1 h2 ⊢
        rcases h1 with h1 | ⟨h1e, h1t⟩
        · rcases h2 with h2 | ⟨h2e, h2t⟩
          · exact Or.inl (strCmp_lt_trans a b c h1 h2)
          · have hbc : b = c := (strCmp_eq_eq b c).mp h2e
            subst hbc
            exact Or.inl h1
        · have hab : a = b := (strCmp_eq_eq a b).mp h1e
          subst hab
          rcases h2 with h2 | ⟨h2e, h2t⟩
          · exact Or.inl h2
          · have hac : a = c := (strCmp_eq_eq a c).mp h2e
            subst hac
            exact Or.inr ⟨(strCmp_eq_eq a a).mpr rfl, ih bs cs2 h1t h2t⟩

/-- entryCmp is eq exactly on equal sort keys. -/
lemma entryCmp_eq_iff {a b : TodoEntry} :
    entryCmp a b = Ordering.eq ↔ entryKey a = entryKey b := by
  unfold entryCmp entryKey
  rw [Ordering.then_eq_eq, pathCmp_eq_eq, natCmp_eq_eq]
  simp [Prod.ext_iff]

/-- entryCmp reverses gt and lt under swapping. -/
lemma entryCmp_gt_iff {a b : TodoEntry} :
    entryCmp a b = Ordering.gt ↔ entryCmp b a = Ordering.lt := by
  unfold entryCmp
  rw [Ordering.then_eq_gt, Ordering.then_eq_lt, pathCmp_gt_iff, natCmp_eq_gt, natCmp_eq_lt]
  constructor
  · rintro (h | ⟨h1, h2⟩)
    · exact Or.inl h
    · have hp : a.file_path = b.file_path := (pathCmp_eq_eq _ _).mp h1
      rw [hp]
      exact Or.inr ⟨(pathCmp_eq_eq _ _).mpr rfl, h2⟩
  · rintro (h | ⟨h1, h2⟩)
    · exact Or.inl h
    · have hp : b.file_path = a.file_path := (pathCmp_eq_eq _ _).mp h1
      rw [hp]
      exact Or.inr ⟨(pathCmp_eq_eq _ _).mpr rfl, h2⟩

/-- entryCmp lt is transitive. -/
lemma entryCmp_lt_trans {a b c : TodoEntry} (h1 : entryCmp a b = Ordering.lt)
    (h2 : entryCmp b c = Ordering.lt) : entryCmp a c = Ordering.lt := by
  unfold entryCmp at h1 h2 ⊢
  rw [Ordering.then_eq_lt] at h1 h2 ⊢
  rcases h1 with h1 | ⟨h1e, h1t⟩
  · rcases h2 with h2 | ⟨h2e, h2t⟩
    · exact Or.inl (pathCmp_lt_trans _ _ _ h1 h2)
    · have hp : b.file_path = c.file_path := (pathCmp_eq_eq _ _).mp h2e
      rw [← hp]
      exact Or.inl h1
  · have hp : a.file_path = b.file_path := (pathCmp_eq_eq _ _).mp h1e
    rcases h2 with h2 | ⟨h2e, h2t⟩
    · rw [hp]
      exact Or.inl h2
    · have hp2 : b.file_path = c.file_path := (pathCmp_eq_eq _ _).mp h2e
      rw [hp, hp2]
      refine Or.inr ⟨(pathCmp_eq_eq _ _).mpr rfl, ?_⟩
      rw [natCmp_eq_lt] at h1t h2t ⊢
      omega

/-- The sort order is total. -/
lemma entryLE_total (a b : TodoEntry) : entryLE a b = true ∨ entryLE b a = true := by
  unfold entryLE
  cases hab : entryCmp a b with
  | lt => left; rfl
  | eq => left; rfl
  | gt =>
    right
    rw [entryCmp_gt_iff.mp hab]

/-- The sort order is transitive. -/
lemma entryLE_trans {a b c : TodoEntry} (h1 : entryLE a b = true)
    (h2 : entryLE b c = true) : entryLE a c = true := by
  unfold entryLE at h1 h2 ⊢
  cases hab : entryCmp a b with
  | gt => rw [hab] at h1; cases h1
  | lt =>
    cases hbc : entryCmp b c with
    | gt => rw [hbc] at h2; cases h2
    | lt => rw [entryCmp_lt_trans hab hbc]
    | eq =>
      have hk := entryCmp_eq_iff.mp hbc
      have hp : b.file_path = c.file_path := by
        have := congrArg Prod.fst hk
        simpa [entryKey] using this
      have hn : b.line_number = c.line_number := by
        have := congrArg Prod.snd hk
        simpa [entryKey] using this
      have hac : entryCmp a c = entryCmp a b := by
        unfold entryCmp
        rw [hp, hn]
      rw [hac, hab]
  | eq =>
    have hk := entryCmp_eq_iff.mp hab
    have hp : a.file_path = b.file_path := by
      have := congrArg Prod.fst hk
      simpa [entryKey] using this
    have hn : a.line_number = b.line_number := by
      have := congrArg Prod.snd hk
      simpa [entryKey] using this
    have hac : entryCmp a c = entryCmp b c := by
      unfold entryCmp
      rw [hp, hn]
    rw [hac]
    exact h2

/-- Members of an insertion are the inserted element or old members. -/
lemma mem_insertE {x e : TodoEntry} : ∀ {l : List TodoEntry},
    x ∈ insertE e l ↔ x = e ∨ x ∈ l := by
  intro l
  induction l with
  | nil => simp [insertE]
  | cons f fs ih =>
    by_cases hle : entryLE e f = true
    · rw [insertE, if_pos hle]
      simp
    · rw [insertE, if_neg hle]
      simp [ih]
      tauto

/-- Insertion preserves sortedness. -/
lemma pairwise_insertE {e : TodoEntry} : ∀ {l : List TodoEntry},
    l.Pairwise entryLeP → (insertE e l).Pairwise entryLeP := by
  intro l
  induction l with
  | nil => intro h; simp [insertE, entryLeP]
  | cons f fs ih =>
    intro h
    rw [List.pairwise_cons] at h
    obtain ⟨hf, hfs⟩ := h
    by_cases hle : entryLE e f = true
    · rw [insertE, if_pos hle]
      refine List.Pairwise.cons ?_ (List.Pairwise.cons hf hfs)
      intro x hx
      rcases List.mem_cons.mp hx with he | hm
      · subst he; exact hle
      · exact entryLE_trans hle (hf x hm)
    · rw [insertE, if_neg hle]
      refine List.Pairwise.cons ?_ (ih hfs)
      intro x hx
      rcases mem_insertE.mp hx with he | hm
      · subst he
        rcases entryLE_total x f with ht | ht
        · exact absurd ht hle
        · exact ht
      · exact hf x hm

/-- The stable insertion sort is sorted. -/
lemma pairwise_sortEntries (l : List TodoEntry) :
    (sortEntries l).Pairwise entryLeP := by
  induction l with
  | nil => simp [sortEntries]
  | cons x xs ih =>
    have : sortEntries (x :: xs) = insertE x (sortEntries xs) := rfl
    rw [this]
    exact pairwise_insertE ih

/-- Insertion is a permutation of consing. -/
lemma perm_insertE (e : TodoEntry) : ∀ (l : List TodoEntry),
    (insertE e l).Perm (e :: l) := by
  intro l
  induction l with
  | nil => simp [insertE]
  | cons f fs ih =>
    by_cases hle : entryLE e f = true
    · rw [insertE, if_pos hle]
    · rw [insertE, if_neg hle]
      exact List.Perm.trans (List.Perm.cons f ih) (List.Perm.swap e f fs)

/-- Sorting permutes the input. -/
lemma perm_sortEntries : ∀ (l : List TodoEntry), (sortEntries l).Perm l := by
  intro l
  induction l with
  | nil => simp [sortEntries]
  | cons x xs ih =>
    have hx : sortEntries (x :: xs) = insertE x (sortEntries xs) := rfl
    rw [hx]
    exact (perm_insertE x (sortEntries xs)).trans (List.Perm.cons x ih)

/-- Strict version of the sort order: below and with a different key. -/
def entryStrict (a b : TodoEntry) : Prop := entryLeP a b ∧ keyNe a b

instance : IsAntisymm TodoEntry entryStrict := by
  constructor
  intro a b h1 h2
  exfalso
  obtain ⟨hle1, hne1⟩ := h1
  obtain ⟨hle2, _⟩ := h2
  unfold entryLeP entryLE at hle1 hle2
  cases hab : entryCmp a b with
  | lt =>
    rw [entryCmp_gt_iff.mpr hab] at hle2
    cases hle2
  | gt => rw [hab] at hle1; cases hle1
  | eq => exact hne1 (entryCmp_eq_iff.mp hab)

/-- Two sorted lists with pairwise-distinct keys that are permutations of
each other are equal. -/
lemma sorted_perm_eq {l1 l2 : List TodoEntry} (hperm : l1.Perm l2)
    (hs1 : l1.Pairwise entryStrict) (hs2 : l2.Pairwise entryStrict) : l1 = l2 :=
  List.eq_of_perm_of_sorted hperm hs1 hs2

/-- Claim C4: the sequence returned by scan_directory is sorted by
(file path lexicographic, then line number ascending); and the result is
independent of the filesystem enumeration order, because any two
enumeration orders of the same entries (which have pairwise-distinct
(path, line) keys, line numbers being unique per file) sort to the same
list. -/
theorem C4_sorted_output :
    (∀ (sc : TodoScanner) (root : FsTree) (es : List TodoEntry),
      scan_directory sc root = Except.ok es → es.Pairwise entryLeP) ∧
    (∀ (l l' : List TodoEntry), l.Perm l' → l.Pairwise keyNe →
      sortEntries l = sortEntries l') := by
  constructor
  · intro sc root es h
    unfold scan_directory at h
    cases hc : collect_entries sc (walkItems sc root) [] with
    | error msg => rw [hc] at h; cases h
    | ok es0 =>
      rw [hc] at h
      have hse : es = sortEntries es0 := (Except.ok.inj h).symm
      rw [hse]
      exact pairwise_sortEntries es0
  · intro l l' hperm hkeys
    have hkeys' : l'.Pairwise keyNe :=
      (hperm.pairwise_iff (fun h => Ne.symm h)).mp hkeys
    have hk1 : (sortEntries l).Pairwise keyNe :=
      ((perm_sortEntries l).pairwise_iff (fun h => Ne.symm h)).mpr hkeys
    have hk2 : (sortEntries l').Pairwise keyNe :=
      ((perm_sortEntries l').pairwise_iff (fun h => Ne.symm h)).mpr hkeys'
    have hs1 : (sortEntries l).Pairwise entryStrict :=
      ((pairwise_sortEntries l).and hk1).imp (fun h => h)
    have hs2 : (sortEntries l').Pairwise entryStrict :=
      ((pairwise_sortEntries l').and hk2).imp (fun h => h)
    exact sorted_perm_eq
      ((perm_sortEntries l).trans (hperm.trans (perm_sortEntries l').symm)) hs1 hs2

/-- File containing one marker, used by the C4 witness. -/
def fmA : FileModel :=
  { metaRes := Except.ok { is_file := true, len := 9 }
    openRes := Except.ok ()
    lineResults := [Except.ok (chars "# TODO: a")] }

/-- Second file containing one marker, used by the C4 witness. -/
def fmB : FileModel :=
  { metaRes := Except.ok { is_file := true, len := 9 }
    openRes := Except.ok ()
    lineResults := [Except.ok (chars "# TODO: b")] }

/-- Tree whose enumeration order (b.py before a.py) differs from the sorted
order. -/
def tC4 : FsTree :=
  FsTree.dir (chars "r")
    (FsForest.cons (FsTree.file (chars "b.py") fmB)
      (FsForest.cons (FsTree.file (chars "a.py") fmA) FsForest.nil))

/-- Default scanner for the C4 witness. -/
def scC4 : TodoScanner :=
  { config := ScanConfig.default, keyword_alts := [chars "TODO"] }

/-- Entry of a.py in the C4 witness. -/
def eA : TodoEntry :=
  { file_path := [chars "r", chars "a.py"]
    line_number := 1
    keyword := chars "TODO"
    text := chars "# TODO: a"
    context := none }

/-- Entry of b.py in the C4 witness. -/
def eB : TodoEntry :=
  { file_path := [chars "r", chars "b.py"]
    line_number := 1
    keyword := chars "TODO"
    text := chars "# TODO: b"
    context := none }

/-- Witness for C4: the files are visited in the order b.py, a.py, yet the
result is sorted, and sorting the two enumeration orders agrees. -/
theorem C4_witness :
    (scan_directory scC4 tC4 = Except.ok [eA, eB] ∧
      ([eA, eB] : List TodoEntry).Pairwise entryLeP) ∧
    sortEntries [eB, eA] = sortEntries [eA, eB] := by
  refine ⟨⟨rfl, C4_sorted_output.1 scC4 tC4 [eA, eB] rfl⟩, ?_⟩
  refine C4_sorted_output.2 [eB, eA] [eA, eB] (List.Perm.swap eA eB []) ?_
  refine List.Pairwise.cons ?_ (List.pairwise_singleton _ _)
  intro b hb
  have hbe : b = eA := by simpa using hb
  subst hbe
  show entryKey eB ≠ entryKey eA
  decide

/-- An entry that passes the filter is not named .git. -/
lemma is_ignored_false_ne_git {cfg : ScanConfig} {n : Str} {ph : Bool}
    (h : is_ignored cfg n ph = false) : n ≠ chars ".git" := by
  intro he
  subst he
  unfold is_ignored at h
  simp at h

mutual
/-- With the filter installed, every path yielded inside a tree extends a
.git-free prefix to a .git-free path: .git entries are pruned with their
whole subtrees. -/
theorem walkTree_no_git (cfg : ScanConfig) (pp : PathC) (ph : Bool) (t : FsTree) :
    ∀ p x, Except.ok (p, x) ∈ walkTree cfg true pp ph t →
      chars ".git" ∉ pp → chars ".git" ∉ p :=
  match t with
  | FsTree.errEntry msg => by
    intro p x hmem hpp
    simp [walkTree] at hmem
  | FsTree.file n fm => by
    intro p x hmem hpp
    cases hig : is_ignored cfg n ph with
    | true => simp [walkTree, hig] at hmem
    | false =>
      simp [walkTree, hig] at hmem
      obtain ⟨hp, _⟩ := hmem
      subst hp
      intro hmem2
      rcases List.mem_append.mp hmem2 with h1 | h2
      · exact hpp h1
      · exact is_ignored_false_ne_git hig (List.mem_singleton.mp h2).symm
  | FsTree.dir n children => by
    intro p x hmem hpp
    cases hig : is_ignored cfg n ph with
    | true => simp [walkTree, hig] at hmem
    | false =>
      simp only [walkTree, hig, Bool.and_false, Bool.true_and, if_false] at hmem
      have hnp : chars ".git" ∉ pp ++ [n] := by
        intro hmem2
        rcases List.mem_append.mp hmem2 with h1 | h2
        · exact hpp h1
        · exact is_ignored_false_ne_git hig (List.mem_singleton.mp h2).symm
      rcases List.mem_cons.mp hmem with hhead | htail
      · have hp : p = pp ++ [n] := by
          have h2 := (Except.ok.inj hhead.symm)
          exact (congrArg Prod.fst h2).symm
        rw [hp]
        exact hnp
      · exact walkForest_no_git cfg (pp ++ [n]) (forestHasGitignore children)
          children p x htail hnp
/-- Forest version of walkTree_no_git. -/
theorem walkForest_no_git (cfg : ScanConfig) (pp : PathC) (ph : Bool) (ts : FsForest) :
    ∀ p x, Except.ok (p, x) ∈ walkForest cfg true pp ph ts →
      chars ".git" ∉ pp → chars ".git" ∉ p :=
  match ts with
  | FsForest.nil => by
    intro p x hmem hpp
    simp [walkForest] at hmem
  | FsForest.cons t ts2 => by
    intro p x hmem hpp
    rcases List.mem_append.mp (by simpa [walkForest] using hmem) with h1 | h2
    · exact walkTree_no_git cfg pp ph t p x h1 hpp
    · exact walkForest_no_git cfg pp ph ts2 p x h2 hpp
end

/-- Every collected entry not from the accumulator has the path of one ok
file item of the walked list. -/
lemma collect_entries_paths (sc : TodoScanner) :
    ∀ (items : List WalkItem) (acc es : List TodoEntry),
      collect_entries sc items acc = Except.ok es →
      ∀ e ∈ es, e ∈ acc ∨
        ∃ p fm, Except.ok (p, some fm) ∈ items ∧ e.file_path = p := by
  intro items
  induction items with
  | nil =>
    intro acc es h e he
    rw [collect_entries] at h
    left
    rw [Except.ok.inj h]
    exact he
  | cons it rest ih =>
    intro acc es h e he
    cases it with
    | error msg =>
      rw [collect_entries] at h
      cases h
    | ok pair =>
      obtain ⟨p, fmo⟩ := pair
      cases fmo with
      | none =>
        rw [collect_entries] at h
        rcases ih acc es h e he with ha | ⟨p', fm', hm, hp⟩
        · exact Or.inl ha
        · exact Or.inr ⟨p', fm', List.mem_cons_of_mem _ hm, hp⟩
      | some fm =>
        rw [collect_entries] at h
        cases hs : should_scan_file sc.config p with
        | false =>
          rw [hs] at h
          simp only [Bool.not_false, if_true] at h
          rcases ih acc es h e he with ha | ⟨p', fm', hm, hp⟩
          · exact Or.inl ha
          · exact Or.inr ⟨p', fm', List.mem_cons_of_mem _ hm, hp⟩
        | true =>
          rw [hs] at h
          simp only [Bool.not_true, if_false] at h
          cases hsf : scan_file sc p fm with
          | ok fes =>
            rw [hsf] at h
            dsimp only at h
            rcases ih (acc ++ fes) es h e he with ha | ⟨p', fm', hm, hp⟩
            · rcases List.mem_append.mp ha with h1 | h2
              · exact Or.inl h1
              · exact Or.inr ⟨p, fm, List.mem_cons_self _ _,
                  (scan_file_spec sc p fm fes hsf e h2).1⟩
            · exact Or.inr ⟨p', fm', List.mem_cons_of_mem _ hm, hp⟩
          | error msg =>
            rw [hsf] at h
            dsimp only at h
            rcases ih acc es h e he with ha | ⟨p', fm', hm, hp⟩
            · exact Or.inl ha
            · exact Or.inr ⟨p', fm', List.mem_cons_of_mem _ hm, hp⟩

/-- Claim C2 (amended): when the ignore heuristic is enabled
(respect_gitignore = true, the only case in which scan_directory installs
the filter), no returned entry lies under a .git component: the .git
subtree is pruned and never descended into. -/
theorem C2_git_pruned (sc : TodoScanner) (root : FsTree) (es : List TodoEntry)
    (hresp : sc.config.respect_gitignore = true)
    (h : scan_directory sc root = Except.ok es) :
    ∀ e ∈ es, chars ".git" ∉ e.file_path := by
  unfold scan_directory at h
  cases hc : collect_entries sc (walkItems sc root) [] with
  | error msg => rw [hc] at h; cases h
  | ok es0 =>
    rw [hc] at h
    have hse : es = sortEntries es0 := (Except.ok.inj h).symm
    intro e he
    have he0 : e ∈ es0 := (perm_sortEntries es0).mem_iff.mp (hse ▸ he)
    rcases collect_entries_paths sc (walkItems sc root) [] es0 hc e he0 with ha | ⟨p, fm, hm, hp⟩
    · cases ha
    · rw [hp]
      unfold walkItems at hm
      rw [hresp] at hm
      exact walkTree_no_git sc.config [] false root p (some fm) hm (by simp)

/-- Configuration with the ignore heuristic disabled. -/
def cfgC2 : ScanConfig :=
  { keywords := [chars "TODO"]
    include_patterns := []
    exclude_patterns := []
    context_lines := 0
    respect_gitignore := false
    max_file_size := 1000 }

/-- Scanner for the C2 counterexample. -/
def scC2 : TodoScanner := { config := cfgC2, keyword_alts := [chars "TODO"] }

/-- File with a marker inside a .git directory. -/
def fmC2 : FileModel :=
  { metaRes := Except.ok { is_file := true, len := 9 }
    openRes := Except.ok ()
    lineResults := [Except.ok (chars "# TODO: x")] }

/-- Tree with the marker file inside .git. -/
def tC2 : FsTree :=
  FsTree.dir (chars "repo")
    (FsForest.cons
      (FsTree.dir (chars ".git")
        (FsForest.cons (FsTree.file (chars "a.py") fmC2) FsForest.nil))
      FsForest.nil)

/-- The entry scan_directory returns from inside the .git subtree. -/
def eC2 : TodoEntry :=
  { file_path := [chars "repo", chars ".git", chars "a.py"]
    line_number := 1
    keyword := chars "TODO"
    text := chars "# TODO: x"
    context := none }

/-- Claim C2 as stated is false on the code: with respect_gitignore = false
the walker installs no filter at all, so a file under .git is scanned and
yields an entry. -/
theorem C2_counterexample :
    scan_directory scC2 tC2 = Except.ok [eC2] ∧
    chars ".git" ∈ eC2.file_path :=
  ⟨rfl, by decide⟩

/-- Scanner with the ignore heuristic enabled, for the C2 witness. -/
def scC2w : TodoScanner :=
  { config := { cfgC2 with respect_gitignore := true }
    keyword_alts := [chars "TODO"] }

/-- Tree with a marker file inside .git and one outside. -/
def tC2w : FsTree :=
  FsTree.dir (chars "repo")
    (FsForest.cons
      (FsTree.dir (chars ".git")
        (FsForest.cons (FsTree.file (chars "a.py") fmC2) FsForest.nil))
      (FsForest.cons (FsTree.file (chars "main.py") fmC2) FsForest.nil))

/-- The entry of the file outside .git. -/
def eC2w : TodoEntry :=
  { file_path := [chars "repo", chars "main.py"]
    line_number := 1
    keyword := chars "TODO"
    text := chars "# TODO: x"
    context := none }

/-- Witness for the amended C2: with the heuristic enabled only the file
outside .git is reported, and the theorem applies to it. -/
theorem C2_witness :
    scan_directory scC2w tC2w = Except.ok [eC2w] ∧
    chars ".git" ∉ eC2w.file_path :=
  ⟨rfl, C2_git_pruned scC2w tC2w [eC2w] rfl rfl eC2w (List.mem_singleton.mpr rfl)⟩

mutual
/-- A tree without error entries yields only ok walk items. -/
theorem walkTree_ok_of_noErr (cfg : ScanConfig) (uf : Bool) (pp : PathC) (ph : Bool)
    (t : FsTree) (hne : treeNoErr t = true) :
    ∀ it ∈ walkTree cfg uf pp ph t, ∃ v, it = Except.ok v :=
  match t with
  | FsTree.errEntry msg => by
    intro it hmem
    rw [treeNoErr] at hne
    cases hne
  | FsTree.file n fm => by
    intro it hmem
    by_cases hig : (uf && is_ignored cfg n ph) = true
    · rw [walkTree, if_pos hig] at hmem
      cases hmem
    · rw [walkTree, if_neg hig] at hmem
      exact ⟨_, List.mem_singleton.mp hmem⟩
  | FsTree.dir n children => by
    intro it hmem
    rw [treeNoErr] at hne
    by_cases hig : (uf && is_ignored cfg n ph) = true
    · rw [walkTree, if_pos hig] at hmem
      cases hmem
    · rw [walkTree, if_neg hig] at hmem
      rcases List.mem_cons.mp hmem with hhead | htail
      · exact ⟨_, hhead⟩
      · exact walkForest_ok_of_noErr cfg uf (pp ++ [n]) (forestHasGitignore children)
          children hne it htail
/-- Forest version of walkTree_ok_of_noErr. -/
theorem walkForest_ok_of_noErr (cfg : ScanConfig) (uf : Bool) (pp : PathC) (ph : Bool)
    (ts : FsForest) (hne : forestNoErr ts = true) :
    ∀ it ∈ walkForest cfg uf pp ph ts, ∃ v, it = Except.ok v :=
  match ts with
  | FsForest.nil => by
    intro it hmem
    simp [walkForest] at hmem
  | FsForest.cons t ts2 => by
    intro it hmem
    rw [forestNoErr, Bool.and_eq_true] at hne
    rcases List.mem_append.mp (by simpa [walkForest] using hmem) with h1 | h2
    · exact walkTree_ok_of_noErr cfg uf pp ph t hne.1 it h1
    · exact walkForest_ok_of_noErr cfg uf pp ph ts2 hne.2 it h2
end

/-- On a list of ok walk items, the collection loop succeeds and returns
the accumulator followed by the entries of the successfully scanned
admitted files; files whose scan fails contribute nothing. -/
lemma collect_entries_ok (sc : TodoScanner) :
    ∀ (items : List WalkItem), (∀ it ∈ items, ∃ v, it = Except.ok v) →
      ∀ acc, collect_entries sc items acc =
        Except.ok (acc ++ successfulEntries sc items) := by
  intro items
  induction items with
  | nil =>
    intro _ acc
    simp [collect_entries, successfulEntries]
  | cons it rest ih =>
    intro hok acc
    have hok2 : ∀ it2 ∈ rest, ∃ v, it2 = Except.ok v :=
      fun it2 hit => hok it2 (List.mem_cons_of_mem _ hit)
    cases it with
    | error msg =>
      exfalso
      obtain ⟨v, hv⟩ := hok _ (List.mem_cons_self _ _)
      cases hv
    | ok pair =>
      obtain ⟨p, fmo⟩ := pair
      cases fmo with
      | none =>
        rw [collect_entries, ih hok2 acc]
        have hse : successfulEntries sc (Except.ok (p, none) :: rest) =
            successfulEntries sc rest := by
          unfold successfulEntries
          rw [List.filterMap_cons_none]
          rfl
        rw [hse]
      | some fm =>
        rw [collect_entries]
        cases hs : should_scan_file sc.config p with
        | false =>
          rw [if_pos (by simp)]
          rw [ih hok2 acc]
          have hse : successfulEntries sc (Except.ok (p, some fm) :: rest) =
              successfulEntries sc rest := by
            unfold successfulEntries
            rw [List.filterMap_cons_none]
            simp [hs]
          rw [hse]
        | true =>
          rw [if_neg (by simp)]
          cases hsf : scan_file sc p fm with
          | ok fes =>
            dsimp only
            rw [ih hok2 (acc ++ fes)]
            have hse : successfulEntries sc (Except.ok (p, some fm) :: rest) =
                fes ++ successfulEntries sc rest := by
              unfold successfulEntries
              rw [List.filterMap_cons_some]
              · rfl
              · simp [hs, hsf, Except.toOption]
            rw [hse, List.append_assoc]
          | error msg =>
            dsimp only
            rw [ih hok2 acc]
            have hse : successfulEntries sc (Except.ok (p, some fm) :: rest) =
                successfulEntries sc rest := by
              unfold successfulEntries
              rw [List.filterMap_cons_none]
              simp [hs, hsf, Except.toOption]
            rw [hse]

/-- Claim C6: a per-file scan error never makes scan_directory fail: on any
tree without walk errors (files may fail arbitrarily), the result is ok and
consists exactly of the sorted entries of the admitted files whose scan
succeeded — failing files are skipped. -/
theorem C6_per_file_errors_nonfatal (sc : TodoScanner) (root : FsTree)
    (h : treeNoErr root = true) :
    scan_directory sc root =
      Except.ok (sortEntries (successfulEntries sc (walkItems sc root))) := by
  unfold scan_directory
  rw [collect_entries_ok sc (walkItems sc root)
    (walkTree_ok_of_noErr sc.config sc.config.respect_gitignore [] false root h) []]
  rw [List.nil_append]

/-- File whose open fails, for the C6 witness. -/
def fmBad : FileModel :=
  { metaRes := Except.ok { is_file := true, len := 5 }
    openRes := Except.error "permission denied"
    lineResults := [] }

/-- File scanned successfully, for the C6 witness. -/
def fmGood : FileModel :=
  { metaRes := Except.ok { is_file := true, len := 9 }
    openRes := Except.ok ()
    lineResults := [Except.ok (chars "# TODO: g")] }

/-- Tree with a failing file before a good one. -/
def tC6 : FsTree :=
  FsTree.dir (chars "r")
    (FsForest.cons (FsTree.file (chars "bad.py") fmBad)
      (FsForest.cons (FsTree.file (chars "good.py") fmGood) FsForest.nil))

/-- Scanner for the C6 witness. -/
def scC6 : TodoScanner :=
  { config := ScanConfig.default, keyword_alts := [chars "TODO"] }

/-- The entry of the good file. -/
def eC6 : TodoEntry :=
  { file_path := [chars "r", chars "good.py"]
    line_number := 1
    keyword := chars "TODO"
    text := chars "# TODO: g"
    context := none }

/-- Witness for C6: bad.py fails to scan, yet the run succeeds and returns
exactly the good file's entry. -/
theorem C6_witness :
    treeNoErr tC6 = true ∧
    scan_file scC6 [chars "r", chars "bad.py"] fmBad =
      Except.error "permission denied" ∧
    scan_directory scC6 tC6 =
      Except.ok (sortEntries (successfulEntries scC6 (walkItems scC6 tC6))) ∧
    scan_directory scC6 tC6 = Except.ok [eC6] :=
  ⟨rfl, rfl, C6_per_file_errors_nonfatal scC6 tC6 rfl, rfl⟩
